import Mathlib

/-!
Verification of the resumable-upload core of the onedrive-uploader repository
(`src/uploader.py`), as a shallow embedding in Lean 4.

Python integers are modelled by `Nat` (all the quantities involved — byte
counts, offsets, HTTP status codes — are non-negative in the source; the few
`float` coercions in the source are value-preserving on these integers and are
dropped).  Strings are modelled by `String` / `List Char`.  Fallible calls
(HTTP requests, `resp.json()`) are modelled by `Option` arguments supplied by
the environment.
-/

namespace Uploader

/-- Constant `_CHUNK_ALIGN = 320 * 1024` from src/uploader.py line 14. -/
def CHUNK_ALIGN : Nat := 320 * 1024

/-- Constant `_MIN_CHUNK = 2 * 1024 * 1024` from src/uploader.py line 15. -/
def MIN_CHUNK : Nat := 2 * 1024 * 1024

/-- Constant `_MAX_CHUNK = 60 * 1024 * 1024` from src/uploader.py line 16. -/
def MAX_CHUNK : Nat := 60 * 1024 * 1024

/-- Embedding of `_round_to_320k` (src/uploader.py lines 21-25):
`if n_bytes & (_CHUNK_ALIGN - 1) == 0: return max(n_bytes, _CHUNK_ALIGN)`,
else round up by integer division.  The bitwise-and test is kept exactly as
written in the source. -/
def round_to_320k (n_bytes : Nat) : Nat :=
  if n_bytes &&& (CHUNK_ALIGN - 1) = 0 then max n_bytes CHUNK_ALIGN
  else ((n_bytes + CHUNK_ALIGN - 1) / CHUNK_ALIGN) * CHUNK_ALIGN

/-- Embedding of `_initial_adaptive_chunk_size` (src/uploader.py lines 27-45):
pick 8/12/16/24 MiB by file-size band, then `_round_to_320k`, then clamp to
`[_MIN_CHUNK, _MAX_CHUNK]`. -/
def initial_adaptive_chunk_size (file_size : Nat) : Nat :=
  let cs : Nat :=
    if file_size < 128 * 1024 * 1024 then 8 * 1024 * 1024
    else if file_size < 512 * 1024 * 1024 then 12 * 1024 * 1024
    else if file_size < 2 * 1024 * 1024 * 1024 then 16 * 1024 * 1024
    else 24 * 1024 * 1024
  min (max (round_to_320k cs) MIN_CHUNK) MAX_CHUNK

/-! ### String helpers modelling the Python primitives used by the parsers -/

/-- Whitespace characters removed by Python `str.strip()` (ASCII subset:
space, tab, newline, carriage return, vertical tab, form feed). -/
def isPySpace (c : Char) : Bool :=
  c = ' ' || c = '\t' || c = '\n' || c = '\x0d' || c = '\x0b' || c = '\x0c'

/-- Model of Python `str.strip()`: drop leading and trailing whitespace. -/
def pyStrip (cs : List Char) : List Char :=
  ((cs.dropWhile isPySpace).reverse.dropWhile isPySpace).reverse

/-- Split a character list at the first occurrence of `c`:
`some (before, after)` when `c` occurs, `none` otherwise.  Together the two
cases model both the Python membership test `c in s` and
`s.split(c, 1)`. -/
def breakAtChar (c : Char) : List Char → Option (List Char × List Char)
  | [] => none
  | x :: xs =>
    if x = c then some ([], xs)
    else match breakAtChar c xs with
      | some (a, b) => some (x :: a, b)
      | none => none

/-- Numeric value of a list of decimal digit characters (the semantics of
Python `int()` on an all-digit string). -/
def digitsToNat (cs : List Char) : Nat :=
  cs.foldl (fun a c => a * 10 + (c.toNat - 48)) 0

/-- Model of Python `int(s)` on a stripped string that contains no minus sign
(in `_parse_next_start` the argument is the part of the range entry before the
first dash, so it can never contain a dash/minus): an optional plus sign
followed by one or more ASCII decimal digits parses to its value, anything
else raises (returns `none`).  Pythonic extras (underscore digit grouping,
non-ASCII digits) are outside the modelled character set. -/
def pyIntNonneg (cs : List Char) : Option Nat :=
  let ds := if cs.head? = some '+' then cs.tail else cs
  if ds ≠ [] && ds.all Char.isDigit then some (digitsToNat ds) else none

/-! ### The two offset parsers (src/uploader.py lines 147-189) -/

/-- Core of `_parse_uploaded_from_headers` (src/uploader.py lines 165-189)
acting on the character list of a non-empty header value:
strip; if an equals sign occurs take the part after the first one, else if a
space occurs take the part after the first one; take the part before the
first slash; split once at a dash (no dash means the Python list has length
one and the function returns `None`); the part after the dash must be a
non-empty digit string, and then the result is `end + 1`. -/
def parse_uploaded_core (cs : List Char) : Option Nat :=
  let val := pyStrip cs
  let val := match breakAtChar '=' val with
    | some st => st.2
    | none => match breakAtChar ' ' val with
      | some st => st.2
      | none => val
  let parts := match breakAtChar '/' val with
    | some st => st.1
    | none => val
  match breakAtChar '-' parts with
  | none => none
  | some se =>
    if se.2 = [] then none
    else if se.2.all Char.isDigit then some (digitsToNat se.2 + 1)
    else none

/-- Embedding of `_parse_uploaded_from_headers` (src/uploader.py 165-189).
The argument models `headers.get(...)`: `none` for a missing header; a
present empty string is falsy in Python, hence also `None`. -/
def parse_uploaded_from_headers : Option String → Option Nat
  | none => none
  | some s => if s.data = [] then none else parse_uploaded_core s.data

/-- Start offset extracted from one range entry (src/uploader.py line 157):
`int(str(rng).split('-', 1)[0].strip())` — the part before the first dash
(the whole entry when there is no dash, as Python `split` always yields a
first element), stripped and fed to `int()`; `none` models `int()` raising. -/
def entryStart (rng : String) : Option Nat :=
  let before := match breakAtChar '-' rng.data with
    | some st => st.1
    | none => rng.data
  pyIntNonneg (pyStrip before)

/-- One iteration of the loop in `_parse_next_start` (src/uploader.py
151-162): on a parse failure keep the accumulator, otherwise take the
minimum of the accumulator and the entry's start. -/
def nextStartStep (acc : Option Nat) (rng : String) : Option Nat :=
  match entryStart rng with
  | some s =>
    match acc with
    | none => some s
    | some m => if s < m then some s else some m
  | none => acc

/-- Embedding of `_parse_next_start` (src/uploader.py lines 147-163).  The
argument models `resp_json.get('nextExpectedRanges') or []` — the list of
range strings, empty when the field is missing.  `float(min_start or 0)`
yields 0 both when no entry parsed and when the minimum is 0. -/
def parse_next_start (ranges : List String) : Nat :=
  (ranges.foldl nextStartStep none).getD 0

/-! ### Session fingerprint (src/uploader.py lines 115-119) -/

/-- Decimal digit characters of `n`, most significant first — the f-string
rendering of a non-negative Python int, used to model `f"...{int(size)}..."`
in `_session_key`. -/
def natToDigits (n : Nat) : List Char :=
  if h : n < 10 then [Nat.digitChar n]
  else natToDigits (n / 10) ++ [Nat.digitChar (n % 10)]
decreasing_by exact Nat.div_lt_self (Nat.lt_of_lt_of_le (by decide) (Nat.le_of_not_lt h)) (by decide)

/-- Embedding of the pre-hash key string of `_session_key` (src/uploader.py
line 118): `f"{os.path.abspath(local_path)}|{remote_path}|{int(file_size)}|{int(st.st_mtime)}"`.
The source feeds this string to `hashlib.sha256(...).hexdigest()`, an external
collision-resistant primitive; the fingerprint is modelled by its pre-image,
so two fingerprints differ exactly when these key strings differ.  Size and
mtime are the non-negative integers `int(file_size)` and `int(st.st_mtime)`. -/
def session_key_base (abs_local remote : List Char) (size mtime : Nat) : List Char :=
  abs_local ++ '|' :: remote ++ '|' :: natToDigits size ++ '|' :: natToDigits mtime

/-! ### Batch planner `upload_items` (src/uploader.py lines 191-330) -/

/-- Model of Python `str.startswith`: prefix test on the character lists. -/
def strStartsWith (s pre : String) : Bool :=
  pre.data.isPrefixOf s.data

/-- Model of `os.path.basename` on a POSIX path: the part after the last
slash (empty when the path ends in a slash, as in Python). -/
def basename (p : String) : String :=
  String.mk ((p.data.reverse.takeWhile (fun c => c ≠ '/')).reverse)

/-- The hidden-file test of the collection loop (src/uploader.py line 205):
`name.startswith('.') or name.startswith('._') or name == 'Icon\r'`
applied to the basename.  The second disjunct is subsumed by the first,
exactly as in the source. -/
def hiddenName (name : String) : Bool :=
  strStartsWith name "." || strStartsWith name "._" || name = "Icon\x0d"

/-- The collection loop of `upload_items` (src/uploader.py lines 199-212):
walk the input list, SKIP entries whose basename is hidden, keep the rest
(paths are taken to be absolute already, so `os.path.abspath` is the
identity), and accumulate `total_bytes` over the kept entries.  The size
component models `os.path.getsize` (0 on `OSError`), supplied with each
path. -/
def collectPhase : List (String × Nat) → List (String × Nat) × Nat
  | [] => ([], 0)
  | (p, sz) :: rest =>
    if hiddenName (basename p) then collectPhase rest
    else
      let lt := collectPhase rest
      ((p, sz) :: lt.1, sz + lt.2)

/-- Per-file status strings written into the batch state
(src/uploader.py lines 284-286): `"done"` or `"incomplete"`. -/
inductive FileStatus where
  | done
  | incomplete
deriving DecidableEq, Repr

/-- Model of `file_states.get(abs_path)` on the batch-state dict, which is
modelled as an association list with one entry per key. -/
def lookupState : List (String × FileStatus) → String → Option FileStatus
  | [], _ => none
  | (q, st) :: rest, p => if q = p then some st else lookupState rest p

/-- Model of `file_states[abs_path] = status` on the dict: update the entry
in place when the key is present, append it otherwise (dicts keep one entry
per key, in insertion order). -/
def setState : List (String × FileStatus) → String → FileStatus → List (String × FileStatus)
  | [], p, st => [(p, st)]
  | (q, st0) :: rest, p, st =>
    if q = p then (q, st) :: rest else (q, st0) :: setState rest p st

/-- The per-file loop of `upload_items` (src/uploader.py lines 233-306) for a
run in which `should_stop` is never set: files already recorded `done` are
skipped; otherwise `upload_file` is invoked (modelled by the oracle
`results : String → Nat` giving the byte count it returns for each path), the
file is recorded `done` when the result covers its size and `incomplete`
otherwise, and a result smaller than the size breaks out of the loop
(re-recording `incomplete`, which is idempotent on the map). -/
def upload_items_loop (results : String → Nat) :
    List (String × Nat) → List (String × FileStatus) → List (String × FileStatus)
  | [], states => states
  | (p, sz) :: rest, states =>
    if lookupState states p = some FileStatus.done then
      upload_items_loop results rest states
    else
      let actual := results p
      let states := setState states p
        (if sz ≤ actual then FileStatus.done else FileStatus.incomplete)
      if actual < sz then states
      else upload_items_loop results rest states

/-- Full observable outcome of `upload_items` (src/uploader.py lines
191-330), for a run with `should_stop` never set, starting from batch state
`init`: the value returned to the caller (line 330: unconditionally `True`),
the `all_done` flag of the final completion check (lines 309-312: the state
has exactly as many entries as the batch and every batch file is `done`;
when it is true the batch-state file is deleted and success is logged,
otherwise only an incompleteness message is logged), and the final batch
state. -/
def upload_items_model (results : String → Nat) (files : List (String × Nat))
    (init : List (String × FileStatus)) :
    Bool × Bool × List (String × FileStatus) :=
  let batch := (collectPhase files).1
  let final := upload_items_loop results batch init
  let allDone := (final.length == batch.length) &&
    batch.all (fun x => lookupState final x.1 == some FileStatus.done)
  (true, allDone, final)

/-! ### Transfer engine `upload_file` (src/uploader.py lines 332-721)

The engine's interaction with the environment (HTTP, the local file, the
cancellation flag) is modelled by a list of events it consumes — one event
per iteration of the `while` loop, each event packaging the outcome the
environment produced for that iteration (the PUT status class, the headers
and body of any follow-up GET, the cancellation polls).  Wall-clock-dependent
quantities (backoff sleeps, EMA throughput, the 30-second save timer, the
25-percent resize hysteresis) do not influence offsets; the two that touch
state (the timer-triggered save and the adaptive chunk resize) appear in the
event as an environment-chosen boolean and an environment-chosen replacement
size.  Floats in the source hold integer byte counts throughout and are
modelled by `Nat`. -/

/-- Outcome of one of the follow-up `GET upload_url` re-queries
(src/uploader.py e.g. lines 452-453): `ok` is `status_code in (200, 201,
202)`; `rangeHeader` is `headers.get("Range") or headers.get("Content-Range")`;
`ranges` is the `nextExpectedRanges` list of `resp.json()`, with `none`
modelling `resp.json()` raising. -/
structure QueryResp where
  ok : Bool
  rangeHeader : Option String
  ranges : Option (List String)

/-- The re-query block that the source repeats verbatim after the initial
GET and after every recoverable error (src/uploader.py lines 454-471 and its
four other copies): prefer the header position when it does not fall behind
`last_confirmed`, clamp into `[0, file_size]`, update `last_confirmed`; when
no header was present fall back to `nextExpectedRanges` with the same
no-regression guard — note the source updates `last_confirmed` there BEFORE
the final clamp.  Returns the new `(uploaded_bytes, last_confirmed)`. -/
def requeryOffset (fileSize lastConfirmed : Nat) (q : QueryResp) : Nat × Nat :=
  let hdrPos := parse_uploaded_from_headers q.rangeHeader
  let u := match hdrPos with
    | some h => if lastConfirmed ≤ h then h else lastConfirmed
    | none => lastConfirmed
  let u := min u fileSize
  let lc := u
  match hdrPos with
  | some _ => (u, lc)
  | none =>
    match q.ranges with
    | some rs =>
      let t := parse_next_start rs
      let u2 := if lc ≤ t then t else lc
      (min u2 fileSize, u2)
    | none => (u, lc)

/-- Classified outcome of one chunk PUT, together with the environment data
consumed by the branch that handles it (src/uploader.py lines 438-711):
 - `netError q`: `session.put` raised; `q` is the recovery GET (`none` = it
   raised too, or returned a non-ok status is carried inside `q`).
 - `conflict q`: status 409/416; `q` is the realignment GET.
 - `authRetry refreshed q q2`: status 401/403; `refreshed` is whether the
   silent token refresh returned a token, `q` the follow-up GET; when the
   block does not `continue`, control falls through to the generic error
   handler whose GET is `q2`.
 - `notFound gotQ createOk q2`: status 404; `gotQ` is the probe GET (`none` =
   raised, `some b` = returned with `b` = "status was 404"); on 404,
   `createOk` says whether the re-create POST returned 200/201; on a non-404
   probe, control falls through to the generic error handler with GET `q2`.
 - `completed`: status 200/201.
 - `accepted hdr ranges resize timeSave stopAfter`: status 202; `hdr` is
   `headers.get("Range") or headers.get("Content-Range")`, `ranges` the
   `nextExpectedRanges` of `resp.json()` (`none` = `resp.json()` raised),
   `resize` the chunk size the wall-clock adaptive block installs this
   iteration (if any), `timeSave` the 30-second save-timer test, and
   `stopAfter` the `should_stop()` poll between chunks.
 - `otherError q`: any other status; `q` is the generic re-query GET. -/
inductive PutOutcome where
  | netError (q : Option QueryResp)
  | conflict (q : Option QueryResp)
  | authRetry (refreshed : Bool) (q : Option QueryResp) (q2 : Option QueryResp)
  | notFound (gotQ : Option Bool) (createOk : Bool) (q2 : Option QueryResp)
  | completed
  | accepted (hdr : Option String) (ranges : Option (List String))
      (resize : Option Nat) (timeSave : Bool) (stopAfter : Bool)
  | otherError (q : Option QueryResp)

/-- One iteration's worth of environment input: either the `should_stop()`
poll at the top of the loop fired (src/uploader.py line 420), or it did not
and the chunk PUT had the given outcome. -/
inductive Event where
  | stop
  | put (o : PutOutcome)

/-- Static configuration of one `upload_file` call: the file size, whether
`account_home_id` is truthy (gates the 401/403 refresh branch), and the
`adaptive` flag. -/
structure LoopCfg where
  fileSize : Nat
  hasAccount : Bool
  adaptive : Bool

/-- Mutable state of the transfer loop: `uploaded` and `lastConfirmed` mirror
`uploaded_bytes` / `last_confirmed_uploaded`; `filePos` the position of the
open file handle; `chunkSize` and `chunksSinceSave` the adaptive size and the
save counter; `store` the persisted session descriptor for this file's key
(`none` = deleted, `some c` = present with `c` the optional `"uploaded"`
checkpoint field); `reports` the successive `uploaded_bytes` arguments passed
to `progress_fn`, oldest first. -/
structure LoopState where
  uploaded : Nat
  lastConfirmed : Nat
  filePos : Nat
  chunkSize : Nat
  chunksSinceSave : Nat
  store : Option (Option Nat)
  reports : List Nat

/-- Apply a re-query GET outcome the way the generic error handler does
(src/uploader.py lines 688-711): on an ok response run the shared block and
seek the file to the new offset; otherwise change nothing. -/
def otherErrorStep (fileSize : Nat) (st : LoopState) (q : Option QueryResp) : LoopState :=
  match q with
  | some qr =>
    if qr.ok then
      let ul := requeryOffset fileSize st.lastConfirmed qr
      { st with uploaded := ul.1, lastConfirmed := ul.2, filePos := ul.1 }
    else st
  | none => st

/-- The 202 accepted-partial handler (src/uploader.py lines 606-677) minus
the wall-clock arithmetic: offset update with no-regression guards (with the
`resp.json()`-raised fallback to `end + 1 = start + n` that does NOT touch
`last_confirmed_uploaded`, line 624), adaptive resize, progress report,
periodic checkpoint, and the between-chunks stop poll.  Returns either the
state to continue with or the suspension result. -/
def acceptedStep (cfg : LoopCfg) (st : LoopState) (n : Nat)
    (hdr : Option String) (ranges : Option (List String))
    (resize : Option Nat) (timeSave stopAfter : Bool) :
    LoopState ⊕ (Nat × LoopState) :=
  let start := st.uploaded
  let hdrPos := parse_uploaded_from_headers hdr
  let u1 := match hdrPos with
    | some h => if st.lastConfirmed ≤ h then h else st.lastConfirmed
    | none => st.lastConfirmed
  let u1 := min u1 cfg.fileSize
  let ulc := match hdrPos with
    | some _ => (u1, u1)
    | none =>
      match ranges with
      | some rs =>
        let t := parse_next_start rs
        let u2 := if u1 ≤ t then t else u1
        (u2, u2)
      | none => (start + n, u1)
  let u3 := min ulc.1 cfg.fileSize
  let cs := match resize with
    | some c => if cfg.adaptive then c else st.chunkSize
    | none => st.chunkSize
  let reports := st.reports ++ [u3]
  let sv := st.chunksSinceSave + 1
  let stored := if 3 ≤ sv || timeSave then (some (some u3), 0) else (st.store, sv)
  let st2 : LoopState :=
    { uploaded := u3, lastConfirmed := ulc.2, filePos := st.filePos,
      chunkSize := cs, chunksSinceSave := stored.2, store := stored.1,
      reports := reports }
  if stopAfter then Sum.inr (u3, { st2 with store := some (some u3) })
  else Sum.inl st2

/-- The transfer loop of `upload_file` (src/uploader.py lines 418-711),
driven by one event per iteration.  The result is the pair of the value the
function returns (always `uploaded_bytes`, which equals `file_size` on the
completed path) and the final state.  Exhausting the event list while the
loop would continue models the file ending early / the run being observed at
that point and returns the current offset like the post-loop line 721. -/
def runLoop (cfg : LoopCfg) : LoopState → List Event → Nat × LoopState
  | st, [] => (st.uploaded, st)
  | st, e :: es =>
    if cfg.fileSize ≤ st.uploaded then (st.uploaded, st)
    else
      match e with
      | Event.stop =>
        (st.uploaded, { st with store := some (some st.uploaded) })
      | Event.put o =>
        let n := min st.chunkSize (cfg.fileSize - st.filePos)
        if n = 0 then (st.uploaded, st)
        else
          let st := { st with filePos := st.filePos + n }
          match o with
          | PutOutcome.netError q =>
            match q with
            | some qr =>
              if qr.ok then
                let ul := requeryOffset cfg.fileSize st.lastConfirmed qr
                runLoop cfg { st with uploaded := ul.1, lastConfirmed := ul.2,
                                      filePos := ul.1 } es
              else
                runLoop cfg { st with uploaded := min st.uploaded cfg.fileSize } es
            | none =>
              runLoop cfg { st with uploaded := min st.uploaded cfg.fileSize } es
          | PutOutcome.conflict q =>
            match q with
            | some qr =>
              if qr.ok then
                let ul := requeryOffset cfg.fileSize st.lastConfirmed qr
                runLoop cfg { st with uploaded := ul.1, lastConfirmed := ul.2,
                                      filePos := ul.1 } es
              else runLoop cfg st es
            | none => runLoop cfg st es
          | PutOutcome.authRetry refreshed q q2 =>
            match cfg.hasAccount && refreshed, q with
            | true, some qr =>
              if qr.ok then
                let ul := requeryOffset cfg.fileSize st.lastConfirmed qr
                runLoop cfg { st with uploaded := ul.1, lastConfirmed := ul.2,
                                      filePos := ul.1 } es
              else runLoop cfg (otherErrorStep cfg.fileSize st q2) es
            | _, _ => runLoop cfg (otherErrorStep cfg.fileSize st q2) es
          | PutOutcome.notFound gotQ createOk q2 =>
            match gotQ with
            | none =>
              (min st.uploaded cfg.fileSize,
               { st with uploaded := min st.uploaded cfg.fileSize })
            | some true =>
              let st := { st with store := none }
              if createOk then
                runLoop cfg { st with store := some none,
                                      uploaded := min st.uploaded cfg.fileSize,
                                      filePos := min st.uploaded cfg.fileSize } es
              else
                (min st.uploaded cfg.fileSize,
                 { st with uploaded := min st.uploaded cfg.fileSize })
            | some false => runLoop cfg (otherErrorStep cfg.fileSize st q2) es
          | PutOutcome.completed =>
            (cfg.fileSize,
             { st with uploaded := cfg.fileSize,
                       reports := st.reports ++ [cfg.fileSize], store := none })
          | PutOutcome.accepted hdr ranges resize timeSave stopAfter =>
            match acceptedStep cfg st n hdr ranges resize timeSave stopAfter with
            | Sum.inl st2 => runLoop cfg st2 es
            | Sum.inr res => res
          | PutOutcome.otherError q =>
            runLoop cfg (otherErrorStep cfg.fileSize st q) es

/-- The initial best-effort status query of `upload_file` (src/uploader.py
lines 367-393): starting from `uploaded_bytes = last_confirmed_uploaded = 0`,
an ok GET runs the shared re-query block; a raised or non-ok GET leaves both
at zero. -/
def initOffsets (fileSize : Nat) (q : Option QueryResp) : Nat × Nat :=
  match q with
  | some qr => if qr.ok then requeryOffset fileSize 0 qr else (0, 0)
  | none => (0, 0)

/-- A whole `upload_file` run after session setup (src/uploader.py lines
367-721): initial status query, initial progress report (line 404), seek to
the resume point, then the transfer loop with the initial adaptive chunk
size.  `store0` is the persisted session descriptor entering the loop. -/
def runUpload (cfg : LoopCfg) (store0 : Option (Option Nat))
    (initQ : Option QueryResp) (events : List Event) : Nat × LoopState :=
  let ulc := initOffsets cfg.fileSize initQ
  runLoop cfg
    { uploaded := ulc.1, lastConfirmed := ulc.2, filePos := ulc.1,
      chunkSize := initial_adaptive_chunk_size cfg.fileSize,
      chunksSinceSave := 0, store := store0, reports := [ulc.1] }
    events

/-- The session-setup phase of `upload_file` (src/uploader.py lines
347-365): when a persisted descriptor with an upload URL exists it is used
as is; otherwise a single `createUploadSession` POST is made, and any status
other than 200/201 raises `RuntimeError` immediately — there is no retry
loop around it.  Result: `(raised, store after the phase)`. -/
def init_phase (prior : Option (Option Nat)) (createStatus : Nat) :
    Bool × Option (Option Nat) :=
  match prior with
  | some d => (false, some d)
  | none =>
    if createStatus = 200 || createStatus = 201 then (false, some none)
    else (true, none)

/-- An event avoids the `resp.json()`-raised fallback of the 202 handler
(src/uploader.py line 624): every accepted-partial response yields its offset
from the Range/Content-Range header or from a parsed `nextExpectedRanges`
body.  All other events satisfy the predicate vacuously. -/
def AcceptedParses : Event → Prop
  | Event.put (PutOutcome.accepted hdr ranges _ _ _) =>
      parse_uploaded_from_headers hdr ≠ none ∨ ranges ≠ none
  | _ => True

instance : DecidablePred AcceptedParses := by
  intro e
  unfold AcceptedParses
  match e with
  | Event.stop => exact inferInstanceAs (Decidable True)
  | Event.put o =>
    match o with
    | PutOutcome.accepted hdr ranges _ _ _ => exact inferInstanceAs (Decidable (_ ∨ _))
    | PutOutcome.netError _ => exact inferInstanceAs (Decidable True)
    | PutOutcome.conflict _ => exact inferInstanceAs (Decidable True)
    | PutOutcome.authRetry _ _ _ => exact inferInstanceAs (Decidable True)
    | PutOutcome.notFound _ _ _ => exact inferInstanceAs (Decidable True)
    | PutOutcome.completed => exact inferInstanceAs (Decidable True)
    | PutOutcome.otherError _ => exact inferInstanceAs (Decidable True)

/-! ## Theorems -/

/-- The shared re-query block always leaves `uploaded_bytes` equal to
`last_confirmed_uploaded` clamped to the file size. -/
lemma requeryOffset_fst (fileSize lc : Nat) (q : QueryResp) :
    (requeryOffset fileSize lc q).1 = min (requeryOffset fileSize lc q).2 fileSize := by
  unfold requeryOffset
  cases parse_uploaded_from_headers q.rangeHeader with
  | some h => simp only; omega
  | none =>
    cases q.ranges with
    | some rs => simp only
    | none => simp only; omega

/-- The shared re-query block never decreases the clamped confirmed offset. -/
lemma requeryOffset_mono (fileSize lc : Nat) (q : QueryResp) :
    min lc fileSize ≤ min (requeryOffset fileSize lc q).2 fileSize := by
  unfold requeryOffset
  cases parse_uploaded_from_headers q.rangeHeader with
  | some h =>
    simp only
    split <;> omega
  | none =>
    cases q.ranges with
    | some rs => simp only; split <;> omega
    | none => simp only; omega

/-- The generic error handler changes no reports. -/
lemma otherErrorStep_reports (fileSize : Nat) (st : LoopState) (q : Option QueryResp) :
    (otherErrorStep fileSize st q).reports = st.reports := by
  unfold otherErrorStep
  cases q with
  | none => rfl
  | some qr =>
    by_cases h : qr.ok = true
    · simp [h]
    · simp [h]

/-- The generic error handler never decreases the clamped confirmed offset. -/
lemma otherErrorStep_floor (fileSize : Nat) (st : LoopState) (q : Option QueryResp) :
    min st.lastConfirmed fileSize ≤ min (otherErrorStep fileSize st q).lastConfirmed fileSize := by
  unfold otherErrorStep
  cases q with
  | none => exact le_refl _
  | some qr =>
    by_cases h : qr.ok = true
    · simpa [h] using requeryOffset_mono fileSize st.lastConfirmed qr
    · simp [h]

/-- Version of `otherErrorStep_floor` stated against any state whose
confirmed offset is `lc`, convenient when the state is a record update. -/
lemma otherErrorStep_floor2 (fileSize lc : Nat) (st : LoopState) (q : Option QueryResp)
    (h : st.lastConfirmed = lc) :
    min lc fileSize ≤ min (otherErrorStep fileSize st q).lastConfirmed fileSize := by
  subst h
  exact otherErrorStep_floor fileSize st q

/-- Behaviour of the 202 handler when the response offset parses (header or
body): it emits exactly one new progress report `u3`, which is at least the
clamped previously-confirmed offset and equal to the new clamped confirmed
offset. -/
lemma acceptedStep_spec (cfg : LoopCfg) (st : LoopState) (n : Nat)
    (hdr : Option String) (ranges : Option (List String))
    (resize : Option Nat) (timeSave stopAfter : Bool)
    (hp : parse_uploaded_from_headers hdr ≠ none ∨ ranges ≠ none) :
    ∃ u3 lc2 st2,
      (acceptedStep cfg st n hdr ranges resize timeSave stopAfter = Sum.inl st2 ∨
       acceptedStep cfg st n hdr ranges resize timeSave stopAfter = Sum.inr (u3, st2)) ∧
      st2.reports = st.reports ++ [u3] ∧
      st2.lastConfirmed = lc2 ∧
      min st.lastConfirmed cfg.fileSize ≤ u3 ∧
      u3 = min lc2 cfg.fileSize := by
  unfold acceptedStep
  cases hph : parse_uploaded_from_headers hdr with
  | some h =>
    simp only
    cases stopAfter with
    | true =>
      refine ⟨_, _, _, Or.inr rfl, rfl, rfl, ?_, ?_⟩ <;>
        (try dsimp only) <;>
        first
        | (split <;> omega)
        | omega
    | false =>
      refine ⟨_, _, _, Or.inl rfl, rfl, rfl, ?_, ?_⟩ <;>
        (try dsimp only) <;>
        first
        | (split <;> omega)
        | omega
  | none =>
    cases hrg : ranges with
    | some rs =>
      simp only
      cases stopAfter with
      | true =>
        refine ⟨_, _, _, Or.inr rfl, rfl, rfl, ?_, ?_⟩ <;>
          (try dsimp only) <;>
          first
          | (split <;> omega)
          | omega
      | false =>
        refine ⟨_, _, _, Or.inl rfl, rfl, rfl, ?_, ?_⟩ <;>
          (try dsimp only) <;>
          first
          | (split <;> omega)
          | omega
    | none =>
      exact absurd hp (by simp [hph, hrg])

/-- Appending a report that dominates the last one preserves sortedness of
the report list. -/
lemma chain'_concat_of (l : List Nat) (a : Nat) (h : l.Chain' (· ≤ ·))
    (hl : ∀ r, l.getLast? = some r → r ≤ a) : (l ++ [a]).Chain' (· ≤ ·) := by
  rw [List.chain'_append]
  refine ⟨h, List.chain'_singleton a, fun x hx y hy => ?_⟩
  have hy2 : a = y := by simpa using hy
  subst hy2
  exact hl x (by simpa using hx)

/-- Invariant propagation for the transfer loop: if the reports so far are
non-decreasing and the last one is at most the clamped confirmed offset,
then — as long as every accepted-partial event parses its offset — the
reports of the whole remaining run are non-decreasing. -/
lemma runLoop_reports_chain (cfg : LoopCfg) (events : List Event) :
    ∀ (st : LoopState),
      (∀ e ∈ events, AcceptedParses e) →
      st.reports.Chain' (· ≤ ·) →
      (∀ r, st.reports.getLast? = some r → r ≤ min st.lastConfirmed cfg.fileSize) →
      ((runLoop cfg st events).2.reports).Chain' (· ≤ ·) := by
  induction events with
  | nil =>
    intro st _ hChain _
    simpa [runLoop] using hChain
  | cons e es ih =>
    intro st hAP hChain hLast
    have hAPes : ∀ x ∈ es, AcceptedParses x :=
      fun x hx => hAP x (List.mem_cons_of_mem _ hx)
    by_cases hdone : cfg.fileSize ≤ st.uploaded
    · simpa [runLoop, hdone] using hChain
    · cases e with
      | stop => simpa [runLoop, hdone] using hChain
      | put o =>
        by_cases hn0 : min st.chunkSize (cfg.fileSize - st.filePos) = 0
        · simpa [runLoop, hdone, hn0] using hChain
        · cases o with
          | netError q =>
            cases q with
            | none =>
              simp only [runLoop, if_neg hdone, if_neg hn0]
              exact ih _ hAPes hChain (fun r hr => hLast r hr)
            | some qr =>
              by_cases hok : qr.ok = true
              · simp only [runLoop, if_neg hdone, if_neg hn0, hok, if_pos]
                refine ih _ hAPes hChain (fun r hr => ?_)
                exact le_trans (hLast r hr)
                  (requeryOffset_mono cfg.fileSize st.lastConfirmed qr)
              · simp only [runLoop, if_neg hdone, if_neg hn0, if_neg hok]
                exact ih _ hAPes hChain (fun r hr => hLast r hr)
          | conflict q =>
            cases q with
            | none =>
              simp only [runLoop, if_neg hdone, if_neg hn0]
              exact ih _ hAPes hChain (fun r hr => hLast r hr)
            | some qr =>
              by_cases hok : qr.ok = true
              · simp only [runLoop, if_neg hdone, if_neg hn0, hok, if_pos]
                refine ih _ hAPes hChain (fun r hr => ?_)
                exact le_trans (hLast r hr)
                  (requeryOffset_mono cfg.fileSize st.lastConfirmed qr)
              · simp only [runLoop, if_neg hdone, if_neg hn0, if_neg hok]
                exact ih _ hAPes hChain (fun r hr => hLast r hr)
          | authRetry refreshed q q2 =>
            simp only [runLoop, if_neg hdone, if_neg hn0]
            rcases hb : cfg.hasAccount && refreshed with _ | _
            · cases q with
              | none =>
                refine ih _ hAPes ?_ ?_
                · rw [otherErrorStep_reports]; exact hChain
                · rw [otherErrorStep_reports]
                  exact fun r hr => le_trans (hLast r hr)
                    (otherErrorStep_floor2 cfg.fileSize st.lastConfirmed _ q2 rfl)
              | some qr =>
                refine ih _ hAPes ?_ ?_
                · rw [otherErrorStep_reports]; exact hChain
                · rw [otherErrorStep_reports]
                  exact fun r hr => le_trans (hLast r hr)
                    (otherErrorStep_floor2 cfg.fileSize st.lastConfirmed _ q2 rfl)
            · cases q with
              | none =>
                refine ih _ hAPes ?_ ?_
                · rw [otherErrorStep_reports]; exact hChain
                · rw [otherErrorStep_reports]
                  exact fun r hr => le_trans (hLast r hr)
                    (otherErrorStep_floor2 cfg.fileSize st.lastConfirmed _ q2 rfl)
              | some qr =>
                by_cases hok : qr.ok = true
                · simp only [hok, if_pos]
                  refine ih _ hAPes hChain (fun r hr => ?_)
                  exact le_trans (hLast r hr)
                    (requeryOffset_mono cfg.fileSize st.lastConfirmed qr)
                · simp only [if_neg hok]
                  refine ih _ hAPes ?_ ?_
                  · rw [otherErrorStep_reports]; exact hChain
                  · rw [otherErrorStep_reports]
                    exact fun r hr => le_trans (hLast r hr)
                      (otherErrorStep_floor2 cfg.fileSize st.lastConfirmed _ q2 rfl)
          | notFound gotQ createOk q2 =>
            cases gotQ with
            | none =>
              simp only [runLoop, if_neg hdone, if_neg hn0]
              exact hChain
            | some b =>
              cases b with
              | true =>
                cases createOk with
                | true =>
                  simp only [runLoop, if_neg hdone, if_neg hn0, if_pos]
                  exact ih _ hAPes hChain (fun r hr => hLast r hr)
                | false =>
                  simp only [runLoop, if_neg hdone, if_neg hn0]
                  exact hChain
              | false =>
                simp only [runLoop, if_neg hdone, if_neg hn0]
                refine ih _ hAPes ?_ ?_
                · rw [otherErrorStep_reports]; exact hChain
                · rw [otherErrorStep_reports]
                  exact fun r hr => le_trans (hLast r hr)
                    (otherErrorStep_floor2 cfg.fileSize st.lastConfirmed _ q2 rfl)
          | completed =>
            simp only [runLoop, if_neg hdone, if_neg hn0]
            refine chain'_concat_of _ _ hChain (fun r hr => ?_)
            exact le_trans (hLast r hr) (min_le_right _ _)
          | accepted hdr ranges resize timeSave stopAfter =>
            have hp : parse_uploaded_from_headers hdr ≠ none ∨ ranges ≠ none := by
              have := hAP _ (List.mem_cons_self _ _)
              simpa [AcceptedParses] using this
            obtain ⟨u3, lc2, st2, hcase, hrep, hlc, hge, hu3⟩ :=
              acceptedStep_spec cfg
                { st with
                    filePos := st.filePos + min st.chunkSize (cfg.fileSize - st.filePos) }
                (min st.chunkSize (cfg.fileSize - st.filePos))
                hdr ranges resize timeSave stopAfter hp
            have hChain2 : st2.reports.Chain' (· ≤ ·) := by
              rw [hrep]
              exact chain'_concat_of _ _ hChain (fun r hr => le_trans (hLast r hr) hge)
            rcases hcase with heq | heq
            · simp only [runLoop, if_neg hdone, if_neg hn0, heq]
              refine ih _ hAPes hChain2 (fun r hr => ?_)
              rw [hrep, List.getLast?_concat] at hr
              have hru : u3 = r := by injection hr
              subst hru
              rw [hlc, ← hu3]
            · simp only [runLoop, if_neg hdone, if_neg hn0, heq]
              exact hChain2
          | otherError q =>
            simp only [runLoop, if_neg hdone, if_neg hn0]
            refine ih _ hAPes ?_ ?_
            · rw [otherErrorStep_reports]; exact hChain
            · rw [otherErrorStep_reports]
              exact fun r hr => le_trans (hLast r hr)
                (otherErrorStep_floor2 cfg.fileSize st.lastConfirmed _ q rfl)

/-- The initial status query leaves `uploaded_bytes` equal to the clamped
initial confirmed offset. -/
lemma initOffsets_fst (fileSize : Nat) (q : Option QueryResp) :
    (initOffsets fileSize q).1 = min (initOffsets fileSize q).2 fileSize := by
  unfold initOffsets
  cases q with
  | none => simp
  | some qr =>
    by_cases h : qr.ok = true
    · simp only [h, if_pos]
      exact requeryOffset_fst fileSize 0 qr
    · simp [h]

/-- C1 (counterexample): the offset passed to the progress sink CAN decrease.
Concretely, for a 100 MiB file with no resumable state: the first chunk PUT
is answered 202 with no Range header and a body on which `resp.json()`
raises, so the handler falls back to `end + 1` and reports 8388608 — without
updating `last_confirmed_uploaded`, which stays 0; the second PUT is answered
202 with the stale header "bytes=0-99", which passes the
`hdr_pos >= last_confirmed_uploaded` guard (100 >= 0) and is reported as 100.
The successive `uploadedBytes` arguments of `progress_fn` are
[0, 8388608, 100]: the third invocation regresses below the second. -/
theorem upload_progress_report_regresses :
    (runUpload ⟨100 * 1024 * 1024, false, true⟩ none none
        [Event.put (PutOutcome.accepted none none none false false),
         Event.put (PutOutcome.accepted (some "bytes=0-99") none none false false)]).2.reports
      = [0, 8388608, 100] ∧
    ¬ List.Chain' (fun a b => a ≤ b)
      (runUpload ⟨100 * 1024 * 1024, false, true⟩ none none
        [Event.put (PutOutcome.accepted none none none false false),
         Event.put (PutOutcome.accepted (some "bytes=0-99") none none false false)]).2.reports := by
  have hr :
      (runUpload ⟨100 * 1024 * 1024, false, true⟩ none none
        [Event.put (PutOutcome.accepted none none none false false),
         Event.put (PutOutcome.accepted (some "bytes=0-99") none none false false)]).2.reports
      = [0, 8388608, 100] := by rfl
  refine ⟨hr, ?_⟩
  rw [hr]
  intro h
  have h2 := (List.chain'_cons.mp (List.chain'_cons.mp h).2).1
  omega

/-- C1 (amended): during a single file transfer, the `uploadedBytes`
argument passed to the progress sink never decreases across invocations,
PROVIDED every accepted-partial (202) response yields its offset from the
Range/Content-Range header or from a parseable `nextExpectedRanges` body —
i.e. the `resp.json()`-raised fallback of line 624, which reports
`end + 1` without updating `last_confirmed_uploaded`, never fires.  This
holds for every such sequence of server-reported offsets, including
duplicate, stale, or reordered ones, and across all recovery branches. -/
theorem upload_progress_monotone_of_parsed (cfg : LoopCfg)
    (store0 : Option (Option Nat)) (initQ : Option QueryResp)
    (events : List Event) (hp : ∀ e ∈ events, AcceptedParses e) :
    ((runUpload cfg store0 initQ events).2.reports).Chain' (· ≤ ·) := by
  unfold runUpload
  refine runLoop_reports_chain cfg events _ hp (List.chain'_singleton _) ?_
  intro r hr
  have hr2 : r = (initOffsets cfg.fileSize initQ).1 := by
    simpa using hr.symm
  subst hr2
  rw [initOffsets_fst]

/-- Witness for `upload_progress_monotone_of_parsed` at a concrete run: two
202 responses, one parsed from the header, one from the body. -/
theorem upload_progress_monotone_of_parsed_witness :
    ((runUpload ⟨100 * 1024 * 1024, false, true⟩ none none
        [Event.put (PutOutcome.accepted (some "bytes=0-8388607") none none false false),
         Event.put (PutOutcome.accepted none (some ["16777216-"]) none false false)]).2.reports).Chain'
      (· ≤ ·) :=
  upload_progress_monotone_of_parsed _ _ _ _ (by decide)

/-- C4: when the cancellation signal is set at the top of the loop (checked
before reading the next chunk) and the file is not yet complete, the engine
persists the session descriptor with the current confirmed offset as its
checkpoint and returns that offset as an ordinary return value — a clean
suspension; no exception is involved (the only `raise` in `upload_file` is
in the session-creation phase, `init_phase`). -/
theorem upload_stop_suspends (cfg : LoopCfg) (st : LoopState) (es : List Event)
    (h : st.uploaded < cfg.fileSize) :
    runLoop cfg st (Event.stop :: es)
      = (st.uploaded, { st with store := some (some st.uploaded) }) := by
  rw [runLoop]
  simp [Nat.not_le.mpr h]

/-- Witness for `upload_stop_suspends` on a concrete mid-transfer state. -/
theorem upload_stop_suspends_witness :
    (5 : Nat) < 10 ∧
    runLoop ⟨10, false, true⟩ ⟨5, 5, 5, 4, 0, some none, [5]⟩ [Event.stop]
      = (5, ⟨5, 5, 5, 4, 0, some (some 5), [5]⟩) :=
  ⟨by decide, upload_stop_suspends ⟨10, false, true⟩ ⟨5, 5, 5, 4, 0, some none, [5]⟩ [] (by decide)⟩

/-- C5: with no prior session descriptor, a `createUploadSession` response
with any status other than 200/201 makes `upload_file` raise immediately
(`RuntimeError`, src/uploader.py line 359); the creation is attempted exactly
once — `init_phase` consumes a single response and has no retry path — and no
session descriptor is persisted for the file (the store stays empty). -/
theorem create_failure_fatal (status : Nat)
    (h200 : status ≠ 200) (h201 : status ≠ 201) :
    init_phase none status = (true, none) := by
  simp [init_phase, h200, h201]

/-- Witness for `create_failure_fatal` at status 403. -/
theorem create_failure_fatal_witness :
    (403 : Nat) ≠ 200 ∧ (403 : Nat) ≠ 201 ∧ init_phase none 403 = (true, none) :=
  ⟨by decide, by decide, create_failure_fatal 403 (by decide) (by decide)⟩

/-- Folding one more digit character multiplies the accumulated value by 10. -/
lemma digitsToNat_concat (l : List Char) (c : Char) :
    digitsToNat (l ++ [c]) = 10 * digitsToNat l + (c.toNat - 48) := by
  unfold digitsToNat
  rw [List.foldl_append]
  simp [Nat.mul_comm]

/-- Code point of a decimal digit character. -/
lemma digitChar_toNat (d : Nat) (h : d < 10) : (Nat.digitChar d).toNat = 48 + d := by
  interval_cases d <;> decide

/-- Decimal digit characters satisfy `Char.isDigit`. -/
lemma digitChar_isDigit (d : Nat) (h : d < 10) : (Nat.digitChar d).isDigit = true := by
  interval_cases d <;> decide

/-- Decimal rendering followed by decimal reading is the identity. -/
lemma natToDigits_roundtrip : ∀ n, digitsToNat (natToDigits n) = n := by
  intro n
  induction n using Nat.strong_induction_on with
  | _ n ih =>
    rw [natToDigits]
    by_cases h : n < 10
    · simp only [dif_pos h]
      have hd := digitChar_toNat n h
      simp [digitsToNat, hd]
    · simp only [dif_neg h]
      rw [digitsToNat_concat]
      rw [ih (n / 10) (Nat.div_lt_self (by omega) (by decide))]
      rw [digitChar_toNat (n % 10) (Nat.mod_lt _ (by decide))]
      omega

/-- Every character of a decimal rendering is a digit. -/
lemma natToDigits_digits : ∀ n, ∀ c ∈ natToDigits n, c.isDigit = true := by
  intro n
  induction n using Nat.strong_induction_on with
  | _ n ih =>
    rw [natToDigits]
    by_cases h : n < 10
    · simp only [dif_pos h]
      intro c hc
      have hc2 : c = Nat.digitChar n := by simpa using hc
      subst hc2
      exact digitChar_isDigit n h
    · simp only [dif_neg h]
      intro c hc
      rcases List.mem_append.mp hc with h1 | h2
      · exact ih (n / 10) (Nat.div_lt_self (by omega) (by decide)) c h1
      · have hc2 : c = Nat.digitChar (n % 10) := by simpa using h2
        subst hc2
        exact digitChar_isDigit _ (Nat.mod_lt _ (by decide))

/-- The field separator of the fingerprint string never occurs inside a
rendered integer field. -/
lemma pipe_not_in_natToDigits (n : Nat) : '|' ∉ natToDigits n := by
  intro hmem
  exact absurd (natToDigits_digits n _ hmem) (by decide)

/-- Splitting at the first occurrence of a character is unambiguous: two
decompositions around a `c` that occurs in neither left part coincide. -/
lemma append_cons_unique {c : Char} :
    ∀ (l1 l2 r1 r2 : List Char), c ∉ l1 → c ∉ l2 →
      l1 ++ c :: r1 = l2 ++ c :: r2 → l1 = l2 ∧ r1 = r2 := by
  intro l1
  induction l1 with
  | nil =>
    intro l2 r1 r2 _ h2 heq
    cases l2 with
    | nil => simpa using heq
    | cons y ys =>
      simp only [List.nil_append, List.cons_append, List.cons.injEq] at heq
      exfalso
      apply h2
      rw [heq.1]
      exact List.mem_cons_self y ys
  | cons x xs ih =>
    intro l2 r1 r2 h1 h2 heq
    cases l2 with
    | nil =>
      simp only [List.cons_append, List.nil_append, List.cons.injEq] at heq
      exfalso
      apply h1
      rw [← heq.1]
      exact List.mem_cons_self x xs
    | cons y ys =>
      simp only [List.cons_append, List.cons.injEq] at heq
      obtain ⟨hxy, hrest⟩ := heq
      have h1b : c ∉ xs := fun hm => h1 (List.mem_cons_of_mem _ hm)
      have h2b : c ∉ ys := fun hm => h2 (List.mem_cons_of_mem _ hm)
      obtain ⟨he1, he2⟩ := ih ys r1 r2 h1b h2b hrest
      exact ⟨by rw [hxy, he1], he2⟩

/-- C8: the session fingerprint is a deterministic (pure) function of the
absolute local path, the remote path, the file size and the file mtime, and
any change to size or mtime changes the pre-hash key string — so the sha256
fingerprint changes (the hash is an injective-in-practice external
primitive applied to this string), the old session file becomes unreachable,
and a fresh session is created for the changed file. -/
theorem session_key_sensitive (p r : List Char) (s1 t1 s2 t2 : Nat)
    (hne : s1 ≠ s2 ∨ t1 ≠ t2) :
    session_key_base p r s1 t1 ≠ session_key_base p r s2 t2 := by
  intro heq
  unfold session_key_base at heq
  simp only [List.append_assoc, List.cons_append] at heq
  have heq2 := List.append_cancel_left heq
  have heq3 : r ++ ('|' :: (natToDigits s1 ++ '|' :: natToDigits t1))
      = r ++ ('|' :: (natToDigits s2 ++ '|' :: natToDigits t2)) := by
    injection heq2
  have heq4 := List.append_cancel_left heq3
  have heq5 : natToDigits s1 ++ '|' :: natToDigits t1
      = natToDigits s2 ++ '|' :: natToDigits t2 := by
    injection heq4
  obtain ⟨hs, ht⟩ := append_cons_unique _ _ _ _
    (pipe_not_in_natToDigits s1) (pipe_not_in_natToDigits s2) heq5
  have hs2 : s1 = s2 := by
    rw [← natToDigits_roundtrip s1, ← natToDigits_roundtrip s2, hs]
  have ht2 : t1 = t2 := by
    rw [← natToDigits_roundtrip t1, ← natToDigits_roundtrip t2, ht]
  rcases hne with h | h
  · exact h hs2
  · exact h ht2

/-- Witness for `session_key_sensitive`: same path, remote path and size,
a touched mtime. -/
theorem session_key_sensitive_witness :
    ((7 : Nat) ≠ 7 ∨ (1000 : Nat) ≠ 2000) ∧
    session_key_base ['/', 'a'] ['r'] 7 1000 ≠ session_key_base ['/', 'a'] ['r'] 7 2000 :=
  ⟨Or.inr (by decide),
   session_key_sensitive ['/', 'a'] ['r'] 7 1000 7 2000 (Or.inr (by decide))⟩

/-- Lookup distributes over concatenation of state maps. -/
lemma lookup_append (m1 m2 : List (String × FileStatus)) (q : String) :
    lookupState (m1 ++ m2) q =
      match lookupState m1 q with
      | some s => some s
      | none => lookupState m2 q := by
  induction m1 with
  | nil => simp [lookupState]
  | cons hd tl ih =>
    obtain ⟨p, st⟩ := hd
    by_cases h : p = q
    · simp [lookupState, h]
    · simp only [List.cons_append, lookupState, if_neg h]
      exact ih

/-- Writing an absent key appends it (dict insertion order). -/
lemma setState_append_of_none (m : List (String × FileStatus)) (p : String) (v : FileStatus)
    (h : lookupState m p = none) : setState m p v = m ++ [(p, v)] := by
  induction m with
  | nil => rfl
  | cons hd tl ih =>
    obtain ⟨q, st⟩ := hd
    rw [lookupState] at h
    by_cases hq : q = p
    · simp [hq] at h
    · rw [if_neg hq] at h
      rw [setState, if_neg hq, ih h]
      rfl

/-- An absent key looks up to `none`. -/
lemma lookup_none_of_not_mem (m : List (String × FileStatus)) (p : String)
    (h : p ∉ m.map Prod.fst) : lookupState m p = none := by
  induction m with
  | nil => rfl
  | cons hd tl ih =>
    obtain ⟨q, st⟩ := hd
    simp only [List.map_cons, List.mem_cons] at h
    push_neg at h
    rw [lookupState, if_neg (fun hqp => h.1 hqp.symm)]
    exact ih h.2

/-- In the map that records every file `done`, every batch file looks up to
`done` (distinct paths). -/
lemma lookup_map_done (l : List (String × Nat)) (x : String × Nat)
    (hnd : (l.map Prod.fst).Nodup) (hx : x ∈ l) :
    lookupState (l.map (fun y => (y.1, FileStatus.done))) x.1 = some FileStatus.done := by
  induction l with
  | nil => cases hx
  | cons hd tl ih =>
    simp only [List.map_cons, List.nodup_cons] at hnd
    rcases List.mem_cons.mp hx with rfl | hmem
    · simp [lookupState]
    · have hne : hd.1 ≠ x.1 := by
        intro he
        exact hnd.1 (he ▸ List.mem_map_of_mem Prod.fst hmem)
      simp only [List.map_cons, lookupState, if_neg hne]
      exact ih hnd.2 hmem

/-- When every file's upload covers its size, the loop marks every file
`done`, appending in order (fresh keys, distinct paths). -/
lemma loop_all_done_general (results : String → Nat) :
    ∀ (files : List (String × Nat)) (m : List (String × FileStatus)),
      (∀ x ∈ files, x.2 ≤ results x.1) →
      (∀ x ∈ files, lookupState m x.1 = none) →
      (files.map Prod.fst).Nodup →
      upload_items_loop results files m
        = m ++ files.map (fun x => (x.1, FileStatus.done)) := by
  intro files
  induction files with
  | nil =>
    intro m _ _ _
    simp [upload_items_loop]
  | cons hd tl ih =>
    intro m hall hnone hnd
    obtain ⟨p, sz⟩ := hd
    simp only [List.map_cons, List.nodup_cons] at hnd
    have hn := hnone _ (List.mem_cons_self _ _)
    have hsz : sz ≤ results p := hall _ (List.mem_cons_self _ _)
    rw [upload_items_loop]
    rw [hn]
    simp only [reduceCtorEq, if_neg (by omega : ¬ results p < sz), if_pos hsz, if_false]
    rw [setState_append_of_none m p FileStatus.done hn]
    rw [ih (m ++ [(p, FileStatus.done)])
      (fun x hx => hall x (List.mem_cons_of_mem _ hx))
      (fun x hx => by
        rw [lookup_append, hnone x (List.mem_cons_of_mem _ hx)]
        have hxp : p ≠ x.1 := by
          intro he
          exact hnd.1 (he ▸ List.mem_map_of_mem Prod.fst hx)
        rw [lookupState, if_neg hxp]
        rfl)
      hnd.2]
    simp

/-- When the uploads of `good` cover their sizes but `b` falls short, the
loop records `good` as done, `b` as incomplete, and stops: files after `b`
are never touched. -/
lemma loop_halt_general (results : String → Nat) (b : String × Nat)
    (rest : List (String × Nat)) (hb : results b.1 < b.2) :
    ∀ (good : List (String × Nat)) (m : List (String × FileStatus)),
      (∀ x ∈ good, x.2 ≤ results x.1) →
      (∀ x ∈ good, lookupState m x.1 = none) →
      lookupState m b.1 = none →
      (good.map Prod.fst).Nodup →
      b.1 ∉ good.map Prod.fst →
      upload_items_loop results (good ++ b :: rest) m
        = m ++ good.map (fun x => (x.1, FileStatus.done)) ++ [(b.1, FileStatus.incomplete)] := by
  intro good
  induction good with
  | nil =>
    intro m _ _ hbnone _ _
    obtain ⟨pb, szb⟩ := b
    simp only [List.nil_append, List.map_nil, List.append_nil]
    rw [upload_items_loop]
    rw [hbnone]
    simp only [reduceCtorEq, if_false]
    have hb2 : results pb < szb := hb
    rw [if_neg (Nat.not_le.mpr hb2), if_pos hb2]
    exact setState_append_of_none m pb FileStatus.incomplete hbnone
  | cons hd tl ih =>
    intro m hall hnone hbnone hnd hbn
    obtain ⟨p, sz⟩ := hd
    simp only [List.map_cons, List.nodup_cons] at hnd
    simp only [List.map_cons, List.mem_cons] at hbn
    push_neg at hbn
    have hn := hnone _ (List.mem_cons_self _ _)
    have hsz : sz ≤ results p := hall _ (List.mem_cons_self _ _)
    rw [List.cons_append, upload_items_loop]
    rw [hn]
    simp only [reduceCtorEq, if_neg (by omega : ¬ results p < sz), if_pos hsz, if_false]
    rw [setState_append_of_none m p FileStatus.done hn]
    rw [ih (m ++ [(p, FileStatus.done)])
      (fun x hx => hall x (List.mem_cons_of_mem _ hx))
      (fun x hx => by
        rw [lookup_append, hnone x (List.mem_cons_of_mem _ hx)]
        have hxp : p ≠ x.1 := by
          intro he
          exact hnd.1 (he ▸ List.mem_map_of_mem Prod.fst hx)
        rw [lookupState, if_neg hxp]
        rfl)
      (by
        rw [lookup_append, hbnone]
        rw [lookupState, if_neg (fun he => hbn.1 he.symm)]
        rfl)
      hnd.2 hbn.2]
    simp [List.append_assoc]

/-- Every list with a failing element splits at its first failing element. -/
lemma exists_first_fail (results : String → Nat) :
    ∀ (l : List (String × Nat)), (∃ x ∈ l, results x.1 < x.2) →
      ∃ g b r2, l = g ++ b :: r2 ∧ (∀ x ∈ g, x.2 ≤ results x.1) ∧ results b.1 < b.2 := by
  intro l
  induction l with
  | nil =>
    rintro ⟨x, hx, _⟩
    cases hx
  | cons hd tl ih =>
    intro hex
    by_cases hhd : results hd.1 < hd.2
    · exact ⟨[], hd, tl, rfl, by simp, hhd⟩
    · have hex2 : ∃ x ∈ tl, results x.1 < x.2 := by
        rcases hex with ⟨x, hx, hfx⟩
        rcases List.mem_cons.mp hx with rfl | hmem
        · exact absurd hfx hhd
        · exact ⟨x, hmem, hfx⟩
      obtain ⟨g, b, r2, heq, hg, hbf⟩ := ih hex2
      refine ⟨hd :: g, b, r2, by rw [heq, List.cons_append], ?_, hbf⟩
      intro x hx
      rcases List.mem_cons.mp hx with rfl | hmem
      · omega
      · exact hg x hmem

/-- A status map built with a constant status has no entry for absent keys. -/
lemma lookup_map_status_none (l : List (String × Nat)) (p : String) (v : FileStatus)
    (h : p ∉ l.map Prod.fst) :
    lookupState (l.map (fun y => (y.1, v))) p = none := by
  induction l with
  | nil => rfl
  | cons hd tl ih =>
    simp only [List.map_cons, List.mem_cons] at h
    push_neg at h
    rw [List.map_cons, lookupState, if_neg (fun he => h.1 he.symm)]
    exact ih h.2

/-- C3: `upload_items` processes the batch strictly in list order, and when
`upload_file` returns fewer bytes than a file's size the batch halts there:
starting from a fresh batch state, every earlier file is recorded `done`,
the failing file `incomplete`, and no later file has any entry (it is never
attempted).  `results` is the oracle giving the byte count `upload_file`
returns per path. -/
theorem batch_halts_on_short_file (results : String → Nat)
    (good : List (String × Nat)) (b : String × Nat) (rest : List (String × Nat))
    (hnodup : ((good ++ b :: rest).map Prod.fst).Nodup)
    (hgood : ∀ x ∈ good, x.2 ≤ results x.1)
    (hb : results b.1 < b.2) :
    (∀ x ∈ good, lookupState (upload_items_loop results (good ++ b :: rest) []) x.1
        = some FileStatus.done) ∧
    lookupState (upload_items_loop results (good ++ b :: rest) []) b.1
      = some FileStatus.incomplete ∧
    (∀ x ∈ rest, lookupState (upload_items_loop results (good ++ b :: rest) []) x.1
        = none) := by
  rw [show (good ++ b :: rest).map Prod.fst
      = good.map Prod.fst ++ b.1 :: rest.map Prod.fst by simp] at hnodup
  obtain ⟨hgnd, hcons, hdisj⟩ := List.nodup_append.mp hnodup
  have hbni : b.1 ∉ good.map Prod.fst :=
    fun hm => (List.disjoint_left.mp hdisj hm) (List.mem_cons_self _ _)
  have hrw := loop_halt_general results b rest hb good [] hgood
    (fun x _ => rfl) rfl hgnd hbni
  rw [List.nil_append] at hrw
  rw [hrw]
  refine ⟨?_, ?_, ?_⟩
  · intro x hx
    rw [lookup_append, lookup_map_done good x hgnd hx]
  · rw [lookup_append, lookup_map_status_none good b.1 FileStatus.done hbni]
    simp [lookupState]
  · intro x hx
    have hx1g : x.1 ∉ good.map Prod.fst := fun hm =>
      (List.disjoint_left.mp hdisj hm)
        (List.mem_cons_of_mem _ (List.mem_map_of_mem Prod.fst hx))
    have hxb : b.1 ≠ x.1 := by
      intro he
      exact (List.nodup_cons.mp hcons).1 (he ▸ List.mem_map_of_mem Prod.fst hx)
    rw [lookup_append, lookup_map_status_none good x.1 FileStatus.done hx1g]
    simp [lookupState, hxb]

/-- Witness for `batch_halts_on_short_file`: files A, B, C where B returns 2
of its 5 bytes — A is done, B incomplete, C absent. -/
theorem batch_halts_on_short_file_witness :
    lookupState (upload_items_loop (fun p => if p = "/d/b" then 2 else 9)
        ([("/d/a", 1)] ++ ("/d/b", 5) :: [("/d/c", 1)]) []) ("/d/a", 1).1
      = some FileStatus.done ∧
    lookupState (upload_items_loop (fun p => if p = "/d/b" then 2 else 9)
        ([("/d/a", 1)] ++ ("/d/b", 5) :: [("/d/c", 1)]) []) ("/d/b", 5).1
      = some FileStatus.incomplete ∧
    lookupState (upload_items_loop (fun p => if p = "/d/b" then 2 else 9)
        ([("/d/a", 1)] ++ ("/d/b", 5) :: [("/d/c", 1)]) []) ("/d/c", 1).1
      = none :=
  have h := batch_halts_on_short_file (fun p => if p = "/d/b" then 2 else 9)
    [("/d/a", 1)] ("/d/b", 5) [("/d/c", 1)] (by decide) (by decide) (by decide)
  ⟨h.1 ("/d/a", 1) (List.mem_cons_self _ _), h.2.1,
   h.2.2 ("/d/c", 1) (List.mem_cons_self _ _)⟩

/-- C9 (counterexample): `upload_items` DOES filter its input list — a file
whose basename starts with a dot is passed in but dropped from the batch
(src/uploader.py lines 204-206), refuting the claim that every file passed
in is included. -/
theorem upload_items_filters_hidden_file :
    ("/d/.hidden", (5 : Nat)) ∈ [(("/d/.hidden" : String), (5 : Nat)), ("/d/a.txt", 3)] ∧
    (collectPhase [("/d/.hidden", 5), ("/d/a.txt", 3)]).1 = [("/d/a.txt", 3)] ∧
    ("/d/.hidden", (5 : Nat)) ∉ (collectPhase [("/d/.hidden", 5), ("/d/a.txt", 3)]).1 := by
  exact ⟨by decide, by decide, by decide⟩

/-- C9 (amended): `upload_items` performs exactly one filtering step of its
own — it drops hidden files (basename starting with a dot, or the literal
name Icon followed by a carriage return); every other input file is included
in the batch, and the batch total is the sum of the included sizes. -/
theorem upload_items_includes_exactly_nonhidden (files : List (String × Nat)) :
    (∀ x, x ∈ (collectPhase files).1 ↔
      (x ∈ files ∧ hiddenName (basename x.1) = false)) ∧
    (collectPhase files).2 = ((collectPhase files).1.map Prod.snd).sum := by
  induction files with
  | nil =>
    refine ⟨fun x => ?_, ?_⟩ <;> simp [collectPhase]
  | cons hd tl ih =>
    obtain ⟨p, sz⟩ := hd
    by_cases h : hiddenName (basename p) = true
    · refine ⟨fun x => ?_, ?_⟩
      · rw [collectPhase, if_pos h, ih.1 x]
        constructor
        · rintro ⟨hm, hh⟩
          exact ⟨List.mem_cons_of_mem _ hm, hh⟩
        · rintro ⟨hm, hh⟩
          rcases List.mem_cons.mp hm with rfl | hm2
          · rw [show (p, sz).1 = p from rfl, h] at hh
            cases hh
          · exact ⟨hm2, hh⟩
      · rw [collectPhase, if_pos h]
        exact ih.2
    · have hf : ¬ (hiddenName (basename p) = true) := h
      refine ⟨fun x => ?_, ?_⟩
      · rw [collectPhase, if_neg hf]
        simp only [List.mem_cons]
        constructor
        · rintro (rfl | hm)
          · exact ⟨Or.inl rfl, by simpa using hf⟩
          · obtain ⟨hm2, hh⟩ := (ih.1 x).mp hm
            exact ⟨Or.inr hm2, hh⟩
        · rintro ⟨rfl | hm, hh⟩
          · exact Or.inl rfl
          · exact Or.inr ((ih.1 x).mpr ⟨hm, hh⟩)
      · rw [collectPhase, if_neg hf]
        simp only [List.map_cons, List.sum_cons]
        rw [ih.2]

/-- C6 (counterexample): `upload_items` returns `True` even when the only
file of the batch stays incomplete (its upload returned 0 of 10 bytes), so
the returned value does not indicate batch completion. -/
theorem upload_items_returns_true_despite_incomplete :
    (upload_items_model (fun _ => 0) [("/d/a", 10)] []).1 = true ∧
    lookupState (upload_items_model (fun _ => 0) [("/d/a", 10)] []).2.2 "/d/a"
      ≠ some FileStatus.done ∧
    (upload_items_model (fun _ => 0) [("/d/a", 10)] []).2.1 = false := by
  exact ⟨rfl, by decide, by decide⟩

/-- C6 (amended): `upload_items` returns `True` unconditionally (line 330);
batch completion is signalled separately by the final all-done check, which
— on a fresh batch state with distinct paths — holds exactly when every
file of the (hidden-filtered) batch uploaded at least its size; only then is
the batch-state record deleted and success reported, otherwise a
batch-incomplete message is logged. -/
theorem upload_items_true_and_alldone_iff (results : String → Nat)
    (files : List (String × Nat))
    (hnodup : ((collectPhase files).1.map Prod.fst).Nodup) :
    (upload_items_model results files []).1 = true ∧
    ((upload_items_model results files []).2.1 = true ↔
      ∀ x ∈ (collectPhase files).1, x.2 ≤ results x.1) := by
  refine ⟨rfl, ?_⟩
  simp only [upload_items_model]
  constructor
  · intro had
    by_contra hnot
    push_neg at hnot
    obtain ⟨g, b, r2, heq, hg, hbf⟩ := exists_first_fail results _
      (by
        obtain ⟨x, hx, hlt⟩ := hnot
        exact ⟨x, hx, hlt⟩)
    rw [heq] at hnodup had
    rw [show (g ++ b :: r2).map Prod.fst
        = g.map Prod.fst ++ b.1 :: r2.map Prod.fst by simp] at hnodup
    obtain ⟨hgnd, hcons, hdisj⟩ := List.nodup_append.mp hnodup
    have hbni : b.1 ∉ g.map Prod.fst :=
      fun hm => (List.disjoint_left.mp hdisj hm) (List.mem_cons_self _ _)
    have hrw := loop_halt_general results b r2 hbf g [] hg
      (fun x _ => rfl) rfl hgnd hbni
    rw [List.nil_append] at hrw
    rw [hrw] at had
    rw [Bool.and_eq_true] at had
    obtain ⟨-, hall⟩ := had
    have hbdone := List.all_eq_true.mp hall b (by simp)
    rw [lookup_append, lookup_map_status_none g b.1 FileStatus.done hbni] at hbdone
    simp [lookupState] at hbdone
  · intro hsucc
    have hrw := loop_all_done_general results (collectPhase files).1 []
      hsucc (fun x _ => rfl) hnodup
    rw [List.nil_append] at hrw
    rw [hrw]
    rw [Bool.and_eq_true]
    refine ⟨by simp, ?_⟩
    refine List.all_eq_true.mpr (fun x hx => ?_)
    rw [lookup_map_done _ x hnodup hx]
    simp

/-- Witness for `upload_items_true_and_alldone_iff` on a two-file batch that
completes. -/
theorem upload_items_true_and_alldone_iff_witness :
    (upload_items_model (fun _ => 9) [("/d/a", 1), ("/d/b", 2)] []).1 = true ∧
    ((upload_items_model (fun _ => 9) [("/d/a", 1), ("/d/b", 2)] []).2.1 = true ↔
      ∀ x ∈ (collectPhase [(("/d/a" : String), (1 : Nat)), ("/d/b", 2)]).1,
        x.2 ≤ (fun _ => 9 : String → Nat) x.1) :=
  upload_items_true_and_alldone_iff (fun _ => 9) [("/d/a", 1), ("/d/b", 2)] (by decide)

/-- A digit character is not Python whitespace. -/
lemma digit_not_pyspace (c : Char) (h : c.isDigit = true) : isPySpace c = false := by
  by_contra hsp
  rw [Bool.not_eq_false] at hsp
  unfold isPySpace at hsp
  simp only [Bool.or_eq_true, decide_eq_true_eq] at hsp
  rcases hsp with ((((h1 | h1) | h1) | h1) | h1) | h1 <;>
    (subst h1; exact absurd h (by decide))

/-- A character that is not a digit is not a member of an all-digit list. -/
lemma not_mem_digits {c : Char} {l : List Char}
    (hd : l.all Char.isDigit = true) (hc : c.isDigit = false) : c ∉ l := by
  intro hm
  rw [List.all_eq_true.mp hd c hm] at hc
  cases hc

/-- `breakAtChar` finds nothing when the character is absent. -/
lemma breakAtChar_not_mem {c : Char} :
    ∀ {l : List Char}, c ∉ l → breakAtChar c l = none := by
  intro l
  induction l with
  | nil => intro _; rfl
  | cons x xs ih =>
    intro h
    have hx : ¬ x = c := fun he => h (by rw [he]; exact List.mem_cons_self c xs)
    rw [breakAtChar, if_neg hx, ih (fun hm => h (List.mem_cons_of_mem _ hm))]

/-- `breakAtChar` splits at the first occurrence. -/
lemma breakAtChar_first (c : Char) :
    ∀ (l1 l2 : List Char), c ∉ l1 → breakAtChar c (l1 ++ c :: l2) = some (l1, l2) := by
  intro l1
  induction l1 with
  | nil =>
    intro l2 _
    rw [List.nil_append, breakAtChar, if_pos rfl]
  | cons x xs ih =>
    intro l2 h
    have hx : ¬ x = c := fun he => h (by rw [he]; exact List.mem_cons_self c xs)
    rw [List.cons_append, breakAtChar, if_neg hx,
      ih l2 (fun hm => h (List.mem_cons_of_mem _ hm))]

/-- A value in `head?` is a member. -/
lemma mem_of_head? {l : List Char} {a : Char} (h : l.head? = some a) : a ∈ l := by
  cases l with
  | nil => cases h
  | cons x xs =>
    have hx : x = a := by injection h
    rw [← hx]
    exact List.mem_cons_self x xs

/-- A value in `getLast?` is a member. -/
lemma mem_of_getLast? {l : List Char} {a : Char} (h : l.getLast? = some a) : a ∈ l := by
  rw [List.getLast?_eq_head?_reverse] at h
  exact List.mem_reverse.mp (mem_of_head? h)

/-- Stripping changes nothing when neither end is whitespace. -/
lemma pyStrip_eq_self (l : List Char)
    (hh : ∀ c, l.head? = some c → isPySpace c = false)
    (hl : ∀ c, l.getLast? = some c → isPySpace c = false) :
    pyStrip l = l := by
  unfold pyStrip
  have h1 : l.dropWhile isPySpace = l := by
    cases l with
    | nil => rfl
    | cons a as =>
      rw [List.dropWhile_cons, if_neg (by simp [hh a rfl])]
  rw [h1]
  have h2 : l.reverse.dropWhile isPySpace = l.reverse := by
    cases hr : l.reverse with
    | nil => rfl
    | cons a as =>
      have ha : l.getLast? = some a := by
        rw [List.getLast?_eq_head?_reverse, hr]
        rfl
      rw [List.dropWhile_cons, if_neg (by simp [hl a ha])]
  rw [h2, List.reverse_reverse]

/-- Stripping an all-digit list changes nothing. -/
lemma pyStrip_digits (l : List Char) (hd : l.all Char.isDigit = true) :
    pyStrip l = l := by
  refine pyStrip_eq_self l (fun c hc => ?_) (fun c hc => ?_)
  · exact digit_not_pyspace c (List.all_eq_true.mp hd c (mem_of_head? hc))
  · exact digit_not_pyspace c (List.all_eq_true.mp hd c (mem_of_getLast? hc))

/-- Header form `bytes <start>-<end>/<total>` parses to `end + 1`. -/
lemma parse_header_space_form (s e t : List Char)
    (hsd : s.all Char.isDigit = true)
    (he : e ≠ []) (hed : e.all Char.isDigit = true)
    (ht : t ≠ []) (htd : t.all Char.isDigit = true) :
    parse_uploaded_core ('b' :: 'y' :: 't' :: 'e' :: 's' :: ' ' :: (s ++ '-' :: (e ++ '/' :: t)))
      = some (digitsToNat e + 1) := by
  have hstrip : pyStrip ('b' :: 'y' :: 't' :: 'e' :: 's' :: ' ' :: (s ++ '-' :: (e ++ '/' :: t)))
      = 'b' :: 'y' :: 't' :: 'e' :: 's' :: ' ' :: (s ++ '-' :: (e ++ '/' :: t)) := by
    refine pyStrip_eq_self _ (fun c hc => ?_) (fun c hc => ?_)
    · have hcb : 'b' = c := by injection hc
      rw [← hcb]
      decide
    · rw [show ('b' :: 'y' :: 't' :: 'e' :: 's' :: ' ' :: (s ++ '-' :: (e ++ '/' :: t)))
          = ['b', 'y', 't', 'e', 's', ' '] ++ (s ++ '-' :: (e ++ '/' :: t)) from rfl] at hc
      rw [List.getLast?_append_of_ne_nil _ (by simp)] at hc
      rw [List.getLast?_append_of_ne_nil _ (by simp)] at hc
      rw [show ('-' :: (e ++ '/' :: t)) = ['-'] ++ (e ++ '/' :: t) from rfl] at hc
      rw [List.getLast?_append_of_ne_nil _ (by simp)] at hc
      rw [List.getLast?_append_of_ne_nil _ (by simp)] at hc
      rw [show ('/' :: t) = ['/'] ++ t from rfl] at hc
      rw [List.getLast?_append_of_ne_nil _ ht] at hc
      exact digit_not_pyspace c (List.all_eq_true.mp htd c (mem_of_getLast? hc))
  have hmeq : '=' ∉ 'b' :: 'y' :: 't' :: 'e' :: 's' :: ' ' :: (s ++ '-' :: (e ++ '/' :: t)) := by
    intro hm
    simp only [List.mem_cons, List.mem_append] at hm
    rcases hm with h|h|h|h|h|h|h|h|h|h|h <;>
      first
      | exact absurd h (by decide)
      | exact absurd (List.all_eq_true.mp hsd '=' h) (by decide)
      | exact absurd (List.all_eq_true.mp hed '=' h) (by decide)
      | exact absurd (List.all_eq_true.mp htd '=' h) (by decide)
  have hsp : breakAtChar ' ' ('b' :: 'y' :: 't' :: 'e' :: 's' :: ' ' :: (s ++ '-' :: (e ++ '/' :: t)))
      = some (['b', 'y', 't', 'e', 's'], s ++ '-' :: (e ++ '/' :: t)) := by
    rw [show ('b' :: 'y' :: 't' :: 'e' :: 's' :: ' ' :: (s ++ '-' :: (e ++ '/' :: t)))
        = ['b', 'y', 't', 'e', 's'] ++ ' ' :: (s ++ '-' :: (e ++ '/' :: t)) from rfl]
    exact breakAtChar_first ' ' _ _ (by decide)
  have hsl : breakAtChar '/' (s ++ '-' :: (e ++ '/' :: t)) = some (s ++ '-' :: e, t) := by
    rw [show s ++ '-' :: (e ++ '/' :: t) = (s ++ '-' :: e) ++ '/' :: t by simp]
    refine breakAtChar_first '/' _ _ ?_
    intro hm
    simp only [List.mem_append, List.mem_cons] at hm
    rcases hm with h|h|h <;>
      first
      | exact absurd (List.all_eq_true.mp hsd '/' h) (by decide)
      | exact absurd h (by decide)
      | exact absurd (List.all_eq_true.mp hed '/' h) (by decide)
  have hda : breakAtChar '-' (s ++ '-' :: e) = some (s, e) :=
    breakAtChar_first '-' _ _ (not_mem_digits hsd (by decide))
  simp only [parse_uploaded_core, hstrip, breakAtChar_not_mem hmeq, hsp, hsl, hda]
  rw [if_neg he, if_pos hed]

/-- Header form `bytes=<start>-<end>` parses to `end + 1`. -/
lemma parse_header_eq_form (s e : List Char)
    (hsd : s.all Char.isDigit = true)
    (he : e ≠ []) (hed : e.all Char.isDigit = true) :
    parse_uploaded_core ('b' :: 'y' :: 't' :: 'e' :: 's' :: '=' :: (s ++ '-' :: e))
      = some (digitsToNat e + 1) := by
  have hstrip : pyStrip ('b' :: 'y' :: 't' :: 'e' :: 's' :: '=' :: (s ++ '-' :: e))
      = 'b' :: 'y' :: 't' :: 'e' :: 's' :: '=' :: (s ++ '-' :: e) := by
    refine pyStrip_eq_self _ (fun c hc => ?_) (fun c hc => ?_)
    · have hcb : 'b' = c := by injection hc
      rw [← hcb]
      decide
    · rw [show ('b' :: 'y' :: 't' :: 'e' :: 's' :: '=' :: (s ++ '-' :: e))
          = ['b', 'y', 't', 'e', 's', '='] ++ (s ++ '-' :: e) from rfl] at hc
      rw [List.getLast?_append_of_ne_nil _ (by simp)] at hc
      rw [List.getLast?_append_of_ne_nil _ (by simp)] at hc
      rw [show ('-' :: e) = ['-'] ++ e from rfl] at hc
      rw [List.getLast?_append_of_ne_nil _ he] at hc
      exact digit_not_pyspace c (List.all_eq_true.mp hed c (mem_of_getLast? hc))
  have heq : breakAtChar '=' ('b' :: 'y' :: 't' :: 'e' :: 's' :: '=' :: (s ++ '-' :: e))
      = some (['b', 'y', 't', 'e', 's'], s ++ '-' :: e) := by
    rw [show ('b' :: 'y' :: 't' :: 'e' :: 's' :: '=' :: (s ++ '-' :: e))
        = ['b', 'y', 't', 'e', 's'] ++ '=' :: (s ++ '-' :: e) from rfl]
    exact breakAtChar_first '=' _ _ (by decide)
  have hsl : breakAtChar '/' (s ++ '-' :: e) = none := by
    refine breakAtChar_not_mem ?_
    intro hm
    simp only [List.mem_append, List.mem_cons] at hm
    rcases hm with h|h|h <;>
      first
      | exact absurd (List.all_eq_true.mp hsd '/' h) (by decide)
      | exact absurd h (by decide)
      | exact absurd (List.all_eq_true.mp hed '/' h) (by decide)
  have hda : breakAtChar '-' (s ++ '-' :: e) = some (s, e) :=
    breakAtChar_first '-' _ _ (not_mem_digits hsd (by decide))
  simp only [parse_uploaded_core, hstrip, heq, hsl, hda]
  rw [if_neg he, if_pos hed]

/-- Header form `bytes <start>-` (absent end bound) parses to `None`. -/
lemma parse_header_no_end (s : List Char) (hsd : s.all Char.isDigit = true) :
    parse_uploaded_core ('b' :: 'y' :: 't' :: 'e' :: 's' :: ' ' :: (s ++ ['-']))
      = none := by
  have hstrip : pyStrip ('b' :: 'y' :: 't' :: 'e' :: 's' :: ' ' :: (s ++ ['-']))
      = 'b' :: 'y' :: 't' :: 'e' :: 's' :: ' ' :: (s ++ ['-']) := by
    refine pyStrip_eq_self _ (fun c hc => ?_) (fun c hc => ?_)
    · have hcb : 'b' = c := by injection hc
      rw [← hcb]
      decide
    · rw [show ('b' :: 'y' :: 't' :: 'e' :: 's' :: ' ' :: (s ++ ['-']))
          = ['b', 'y', 't', 'e', 's', ' '] ++ (s ++ ['-']) from rfl] at hc
      rw [List.getLast?_append_of_ne_nil _ (by simp)] at hc
      rw [List.getLast?_append_of_ne_nil _ (by simp)] at hc
      have hcd : '-' = c := by
        rw [show (['-'] : List Char).getLast? = some '-' from rfl] at hc
        injection hc
      rw [← hcd]
      decide
  have hmeq : '=' ∉ 'b' :: 'y' :: 't' :: 'e' :: 's' :: ' ' :: (s ++ ['-']) := by
    intro hm
    simp only [List.mem_cons, List.mem_append] at hm
    rcases hm with h|h|h|h|h|h|h|h <;>
      first
      | exact absurd h (by decide)
      | exact absurd (List.all_eq_true.mp hsd '=' h) (by decide)
      | cases h
  have hsp : breakAtChar ' ' ('b' :: 'y' :: 't' :: 'e' :: 's' :: ' ' :: (s ++ ['-']))
      = some (['b', 'y', 't', 'e', 's'], s ++ ['-']) := by
    rw [show ('b' :: 'y' :: 't' :: 'e' :: 's' :: ' ' :: (s ++ ['-']))
        = ['b', 'y', 't', 'e', 's'] ++ ' ' :: (s ++ ['-']) from rfl]
    exact breakAtChar_first ' ' _ _ (by decide)
  have hsl : breakAtChar '/' (s ++ ['-']) = none := by
    refine breakAtChar_not_mem ?_
    intro hm
    simp only [List.mem_append, List.mem_cons] at hm
    rcases hm with h|h|h <;>
      first
      | exact absurd (List.all_eq_true.mp hsd '/' h) (by decide)
      | exact absurd h (by decide)
      | cases h
  have hda : breakAtChar '-' (s ++ ['-']) = some (s, []) := by
    rw [show s ++ ['-'] = s ++ '-' :: ([] : List Char) from rfl]
    exact breakAtChar_first '-' _ _ (not_mem_digits hsd (by decide))
  simp only [parse_uploaded_core, hstrip, breakAtChar_not_mem hmeq, hsp, hsl, hda]
  simp

/-- Header form `bytes <start>-<end>` with a non-numeric end bound (a
non-empty separator-free token that is not all digits) parses to `None`. -/
lemma parse_header_bad_end (s e : List Char)
    (hsd : s.all Char.isDigit = true)
    (he : e ≠ []) (hed : e.all Char.isDigit = false)
    (htok : ∀ c ∈ e, c ≠ '=' ∧ c ≠ ' ' ∧ c ≠ '/' ∧ c ≠ '-' ∧ isPySpace c = false) :
    parse_uploaded_core ('b' :: 'y' :: 't' :: 'e' :: 's' :: ' ' :: (s ++ '-' :: e))
      = none := by
  have hstrip : pyStrip ('b' :: 'y' :: 't' :: 'e' :: 's' :: ' ' :: (s ++ '-' :: e))
      = 'b' :: 'y' :: 't' :: 'e' :: 's' :: ' ' :: (s ++ '-' :: e) := by
    refine pyStrip_eq_self _ (fun c hc => ?_) (fun c hc => ?_)
    · have hcb : 'b' = c := by injection hc
      rw [← hcb]
      decide
    · rw [show ('b' :: 'y' :: 't' :: 'e' :: 's' :: ' ' :: (s ++ '-' :: e))
          = ['b', 'y', 't', 'e', 's', ' '] ++ (s ++ '-' :: e) from rfl] at hc
      rw [List.getLast?_append_of_ne_nil _ (by simp)] at hc
      rw [List.getLast?_append_of_ne_nil _ (by simp)] at hc
      rw [show ('-' :: e) = ['-'] ++ e from rfl] at hc
      rw [List.getLast?_append_of_ne_nil _ he] at hc
      exact (htok c (mem_of_getLast? hc)).2.2.2.2
  have hmeq : '=' ∉ 'b' :: 'y' :: 't' :: 'e' :: 's' :: ' ' :: (s ++ '-' :: e) := by
    intro hm
    simp only [List.mem_cons, List.mem_append] at hm
    rcases hm with h|h|h|h|h|h|h|h|h <;>
      first
      | exact absurd h (by decide)
      | exact absurd (List.all_eq_true.mp hsd '=' h) (by decide)
      | exact absurd rfl (htok '=' h).1
  have hsp : breakAtChar ' ' ('b' :: 'y' :: 't' :: 'e' :: 's' :: ' ' :: (s ++ '-' :: e))
      = some (['b', 'y', 't', 'e', 's'], s ++ '-' :: e) := by
    rw [show ('b' :: 'y' :: 't' :: 'e' :: 's' :: ' ' :: (s ++ '-' :: e))
        = ['b', 'y', 't', 'e', 's'] ++ ' ' :: (s ++ '-' :: e) from rfl]
    exact breakAtChar_first ' ' _ _ (by decide)
  have hsl : breakAtChar '/' (s ++ '-' :: e) = none := by
    refine breakAtChar_not_mem ?_
    intro hm
    simp only [List.mem_append, List.mem_cons] at hm
    rcases hm with h|h|h <;>
      first
      | exact absurd (List.all_eq_true.mp hsd '/' h) (by decide)
      | exact absurd h (by decide)
      | exact absurd rfl (htok '/' h).2.2.1
  have hda : breakAtChar '-' (s ++ '-' :: e) = some (s, e) :=
    breakAtChar_first '-' _ _ (not_mem_digits hsd (by decide))
  simp only [parse_uploaded_core, hstrip, breakAtChar_not_mem hmeq, hsp, hsl, hda]
  rw [if_neg he, if_neg (by simp [hed])]

/-- `int()` on a non-empty all-digit token returns its value. -/
lemma pyIntNonneg_digits (sv : List Char) (h1 : sv ≠ []) (h2 : sv.all Char.isDigit = true) :
    pyIntNonneg sv = some (digitsToNat sv) := by
  unfold pyIntNonneg
  have hhead : ¬ sv.head? = some '+' := by
    cases sv with
    | nil => simp
    | cons a as =>
      have ha : a.isDigit = true := List.all_eq_true.mp h2 a (List.mem_cons_self _ _)
      intro he
      have ha2 : a = '+' := by injection he
      rw [ha2] at ha
      exact absurd ha (by decide)
  rw [if_neg hhead, if_pos (by simp [h1, h2])]

/-- One `_parse_next_start` iteration on a well-formed range entry takes the
minimum of the accumulator and the entry's start value. -/
lemma nextStartStep_entry (acc : Option Nat) (sv rv : List Char)
    (h1 : sv ≠ []) (h2 : sv.all Char.isDigit = true) :
    nextStartStep acc (String.mk (sv ++ '-' :: rv))
      = some (match acc with
              | none => digitsToNat sv
              | some m => if digitsToNat sv < m then digitsToNat sv else m) := by
  have hes : entryStart (String.mk (sv ++ '-' :: rv)) = some (digitsToNat sv) := by
    unfold entryStart
    have hbr : breakAtChar '-' (String.mk (sv ++ '-' :: rv)).data = some (sv, rv) :=
      breakAtChar_first '-' _ _ (not_mem_digits h2 (by decide))
    simp only [hbr]
    rw [pyStrip_digits sv h2, pyIntNonneg_digits sv h1 h2]
  unfold nextStartStep
  rw [hes]
  cases acc with
  | none => rfl
  | some m => by_cases hm : digitsToNat sv < m <;> simp [hm]

/-- The `_parse_next_start` fold over well-formed entries computes the
running minimum. -/
lemma fold_next_start :
    ∀ (rs : List (List Char × List Char)) (a : Nat),
      (∀ sr ∈ rs, sr.1 ≠ [] ∧ sr.1.all Char.isDigit = true) →
      List.foldl nextStartStep (some a)
          (rs.map (fun sr => String.mk (sr.1 ++ '-' :: sr.2)))
        = some (List.foldl (fun m v => if v < m then v else m) a
            (rs.map (fun sr => digitsToNat sr.1))) := by
  intro rs
  induction rs with
  | nil => intro a _; rfl
  | cons sr tl ih =>
    intro a hall
    obtain ⟨hne, hdig⟩ := hall sr (List.mem_cons_self _ _)
    simp only [List.map_cons, List.foldl_cons]
    rw [nextStartStep_entry (some a) sr.1 sr.2 hne hdig]
    exact ih _ (fun x hx => hall x (List.mem_cons_of_mem _ hx))

/-- The running minimum is a lower bound of its inputs and start value. -/
lemma foldl_min_le :
    ∀ (l : List Nat) (a : Nat),
      List.foldl (fun m v => if v < m then v else m) a l ≤ a ∧
      ∀ v ∈ l, List.foldl (fun m v => if v < m then v else m) a l ≤ v := by
  intro l
  induction l with
  | nil => intro a; exact ⟨le_refl a, fun v hv => absurd hv (List.not_mem_nil v)⟩
  | cons x xs ih =>
    intro a
    simp only [List.foldl_cons]
    obtain ⟨h1, h2⟩ := ih (if x < a then x else a)
    refine ⟨le_trans h1 (by split <;> omega), fun v hv => ?_⟩
    rcases List.mem_cons.mp hv with rfl | hm
    · exact le_trans h1 (by split <;> omega)
    · exact h2 v hm

/-- The running minimum is attained by the start value or some input. -/
lemma foldl_min_mem :
    ∀ (l : List Nat) (a : Nat),
      List.foldl (fun m v => if v < m then v else m) a l = a ∨
      List.foldl (fun m v => if v < m then v else m) a l ∈ l := by
  intro l
  induction l with
  | nil => intro a; exact Or.inl rfl
  | cons x xs ih =>
    intro a
    simp only [List.foldl_cons]
    rcases ih (if x < a then x else a) with h | h
    · rw [h]
      split
      · exact Or.inr (List.mem_cons_self x xs)
      · exact Or.inl rfl
    · exact Or.inr (List.mem_cons_of_mem _ h)

/-- When no entry yields a parseable start, the fold keeps `None`. -/
lemma parse_next_start_unparsed (entries : List String)
    (h : ∀ r ∈ entries, entryStart r = none) :
    parse_next_start entries = 0 := by
  unfold parse_next_start
  have hfold : entries.foldl nextStartStep none = none := by
    induction entries with
    | nil => rfl
    | cons r tl ih =>
      rw [List.foldl_cons]
      have hr : nextStartStep none r = none := by
        unfold nextStartStep
        rw [h r (List.mem_cons_self _ _)]
      rw [hr]
      exact ih (fun x hx => h x (List.mem_cons_of_mem _ hx))
  rw [hfold]
  rfl

/-- A non-empty header string is parsed by `parse_uploaded_core`. -/
lemma parse_headers_mk (L : List Char) (h : L ≠ []) :
    parse_uploaded_from_headers (some (String.mk L)) = parse_uploaded_core L := by
  show (if (String.mk L).data = [] then none else parse_uploaded_core (String.mk L).data)
      = parse_uploaded_core L
  rw [if_neg (by simpa using h)]

/-- C7: conformance of the two offset parsers.
For headers: every string of the form `bytes <start>-<end>/<total>` or
`bytes=<start>-<end>` (digit fields) parses to `end + 1`; the result is
`None` when the end bound is absent or a non-numeric token.
For bodies: on a `nextExpectedRanges` list of `<start>-` / `<start>-<end>`
entries, `_parse_next_start` returns the minimum reported start (a member of
the starts that bounds them all below), and returns 0 when the list is empty
or when no entry parses. -/
theorem header_and_body_offset_parsing :
    (∀ s e t : List Char, s.all Char.isDigit = true →
        e ≠ [] → e.all Char.isDigit = true →
        t ≠ [] → t.all Char.isDigit = true →
        parse_uploaded_from_headers
            (some (String.mk
              ('b' :: 'y' :: 't' :: 'e' :: 's' :: ' ' :: (s ++ '-' :: (e ++ '/' :: t)))))
          = some (digitsToNat e + 1)) ∧
    (∀ s e : List Char, s.all Char.isDigit = true →
        e ≠ [] → e.all Char.isDigit = true →
        parse_uploaded_from_headers
            (some (String.mk ('b' :: 'y' :: 't' :: 'e' :: 's' :: '=' :: (s ++ '-' :: e))))
          = some (digitsToNat e + 1)) ∧
    (∀ s : List Char, s.all Char.isDigit = true →
        parse_uploaded_from_headers
            (some (String.mk ('b' :: 'y' :: 't' :: 'e' :: 's' :: ' ' :: (s ++ ['-']))))
          = none) ∧
    (∀ s e : List Char, s.all Char.isDigit = true →
        e ≠ [] → e.all Char.isDigit = false →
        (∀ c ∈ e, c ≠ '=' ∧ c ≠ ' ' ∧ c ≠ '/' ∧ c ≠ '-' ∧ isPySpace c = false) →
        parse_uploaded_from_headers
            (some (String.mk ('b' :: 'y' :: 't' :: 'e' :: 's' :: ' ' :: (s ++ '-' :: e))))
          = none) ∧
    (∀ rs : List (List Char × List Char),
        (∀ sr ∈ rs, sr.1 ≠ [] ∧ sr.1.all Char.isDigit = true) →
        rs ≠ [] →
        parse_next_start (rs.map (fun sr => String.mk (sr.1 ++ '-' :: sr.2)))
            ∈ rs.map (fun sr => digitsToNat sr.1) ∧
        ∀ v ∈ rs.map (fun sr => digitsToNat sr.1),
          parse_next_start (rs.map (fun sr => String.mk (sr.1 ++ '-' :: sr.2))) ≤ v) ∧
    parse_next_start [] = 0 ∧
    (∀ entries : List String, (∀ r ∈ entries, entryStart r = none) →
        parse_next_start entries = 0) := by
  refine ⟨?_, ?_, ?_, ?_, ?_, rfl, parse_next_start_unparsed⟩
  · intro s e t hsd he hed ht htd
    rw [parse_headers_mk _ (by simp)]
    exact parse_header_space_form s e t hsd he hed ht htd
  · intro s e hsd he hed
    rw [parse_headers_mk _ (by simp)]
    exact parse_header_eq_form s e hsd he hed
  · intro s hsd
    rw [parse_headers_mk _ (by simp)]
    exact parse_header_no_end s hsd
  · intro s e hsd he hed htok
    rw [parse_headers_mk _ (by simp)]
    exact parse_header_bad_end s e hsd he hed htok
  · intro rs hall hne
    cases rs with
    | nil => exact absurd rfl hne
    | cons sr tl =>
      obtain ⟨h1, h2⟩ := hall sr (List.mem_cons_self _ _)
      unfold parse_next_start
      simp only [List.map_cons, List.foldl_cons]
      rw [nextStartStep_entry none sr.1 sr.2 h1 h2]
      rw [fold_next_start tl (digitsToNat sr.1)
        (fun x hx => hall x (List.mem_cons_of_mem _ hx))]
      simp only [Option.getD_some]
      constructor
      · rcases foldl_min_mem (tl.map (fun sr => digitsToNat sr.1)) (digitsToNat sr.1)
            with h | h
        · rw [h]
          exact List.mem_cons_self _ _
        · exact List.mem_cons_of_mem _ h
      · intro v hv
        rcases List.mem_cons.mp hv with rfl | hm
        · exact (foldl_min_le (tl.map (fun sr => digitsToNat sr.1)) _).1
        · exact (foldl_min_le (tl.map (fun sr => digitsToNat sr.1)) _).2 v hm

/-- Witness for `header_and_body_offset_parsing` at concrete inputs:
"bytes 0-99/200" and "bytes=0-99" parse to 100; "bytes 0-" and
"bytes 0-xy" parse to `None`; the ranges ["7-", "3-9"] yield minimum 3; the
unparseable entry list ["x"] yields 0. -/
theorem header_and_body_offset_parsing_witness :
    parse_uploaded_from_headers
        (some (String.mk
          ('b' :: 'y' :: 't' :: 'e' :: 's' :: ' ' :: (['0'] ++ '-' :: (['9', '9'] ++ '/' :: ['2', '0', '0'])))))
      = some (digitsToNat ['9', '9'] + 1) ∧
    parse_uploaded_from_headers
        (some (String.mk ('b' :: 'y' :: 't' :: 'e' :: 's' :: '=' :: (['0'] ++ '-' :: ['9', '9']))))
      = some (digitsToNat ['9', '9'] + 1) ∧
    parse_uploaded_from_headers
        (some (String.mk ('b' :: 'y' :: 't' :: 'e' :: 's' :: ' ' :: (['0'] ++ ['-'])))) = none ∧
    parse_uploaded_from_headers
        (some (String.mk ('b' :: 'y' :: 't' :: 'e' :: 's' :: ' ' :: (['0'] ++ '-' :: ['x', 'y']))))
      = none ∧
    (parse_next_start ([(['7'], ([] : List Char)), (['3'], ['9'])].map
          (fun sr => String.mk (sr.1 ++ '-' :: sr.2)))
        ∈ [(['7'], ([] : List Char)), (['3'], ['9'])].map (fun sr => digitsToNat sr.1) ∧
      ∀ v ∈ [(['7'], ([] : List Char)), (['3'], ['9'])].map (fun sr => digitsToNat sr.1),
        parse_next_start ([(['7'], ([] : List Char)), (['3'], ['9'])].map
            (fun sr => String.mk (sr.1 ++ '-' :: sr.2))) ≤ v) ∧
    parse_next_start [String.mk ['x']] = 0 :=
  ⟨header_and_body_offset_parsing.1 ['0'] ['9', '9'] ['2', '0', '0']
      (by decide) (by decide) (by decide) (by decide) (by decide),
   header_and_body_offset_parsing.2.1 ['0'] ['9', '9'] (by decide) (by decide) (by decide),
   header_and_body_offset_parsing.2.2.1 ['0'] (by decide),
   header_and_body_offset_parsing.2.2.2.1 ['0'] ['x', 'y']
      (by decide) (by decide) (by decide) (by decide),
   header_and_body_offset_parsing.2.2.2.2.1 [(['7'], ([] : List Char)), (['3'], ['9'])]
      (by decide) (by decide),
   header_and_body_offset_parsing.2.2.2.2.2.2 [String.mk ['x']] (by decide)⟩

/-- C10: the code's own docstring says `_round_to_320k` rounds up to the
nearest 320 KiB multiple, but the bitmask divisibility test
`n & (_CHUNK_ALIGN - 1) == 0` is only correct for power-of-two alignments and
320 KiB is not a power of two.  At input 524288 (= 2^19) the test wrongly
passes, so the function returns 524288, which is not a multiple of 327680;
the smallest multiple of 327680 that is ≥ 524288 is 655360. -/
theorem round_to_320k_not_round_up :
    round_to_320k 524288 = 524288 ∧
    ¬ (CHUNK_ALIGN ∣ round_to_320k 524288) ∧
    CHUNK_ALIGN ∣ 655360 ∧ 524288 ≤ 655360 := by
  refine ⟨by decide, ?_, by decide, by decide⟩
  intro h
  have : round_to_320k 524288 = 524288 := by decide
  rw [this] at h
  exact absurd h (by decide)

/-- C2: for any file smaller than 128 MiB the engine's chunk size — the length
of every non-final chunk it sends — is `initial_adaptive_chunk_size`, which
evaluates to 8 MiB = 8388608 bytes; this is inside `[2 MiB, 60 MiB]` but is
NOT a multiple of 320*1024 = 327680 (8388608 mod 327680 = 196608), because
the bitmask alignment test of `_round_to_320k` wrongly accepts powers of two.
This refutes the alignment part of the claim on the code as written. -/
theorem chunk_size_not_320k_aligned :
    initial_adaptive_chunk_size (10 * 1024 * 1024) = 8388608 ∧
    MIN_CHUNK ≤ 8388608 ∧ 8388608 ≤ MAX_CHUNK ∧
    ¬ (CHUNK_ALIGN ∣ 8388608) := by
  refine ⟨by decide, by decide, by decide, ?_⟩
  intro h
  exact absurd h (by decide)

end Uploader
